import Mathlib

/-!
Verification development for the QR frame-to-artifact extraction pipeline.

The JavaScript sources are shallowly embedded: JS numbers are modelled as
exact rationals, Math.floor as Int.floor, Math.round as the round function
of Mathlib (round half towards positive infinity, which agrees with the
JS Math.round on all inputs), and pixel buffers as functions from flat
byte indices to natural numbers.
-/

namespace QrPipeline

/-- Embedding of the clamp helper of App.jsx:
clamp(val, min, max) = Math.max(min, Math.min(max, val)). -/
def clampJS (val lo hi : ℤ) : ℤ := max lo (min hi val)

/-- Math.min over a spread list, as used on the corner coordinate arrays.
The callers always pass at least three points, so the empty default is
never reached. -/
def listMin (l : List ℚ) : ℚ :=
  match l with
  | [] => 0
  | a :: t => t.foldl min a

/-- Math.max over a spread list. -/
def listMax (l : List ℚ) : ℚ :=
  match l with
  | [] => 0
  | a :: t => t.foldl max a

/-- Integer axis-aligned bounding box, as produced by the region extractor
and stored in the stability history. -/
structure Box where
  x : ℤ
  y : ℤ
  w : ℤ
  h : ℤ
deriving DecidableEq

/-- Region extractor of App.jsx handleCapture (corners branch):
min and max extents of the corner points, proportional padding
pad = padFrac * max(boxW, boxH), then
x = clamp(floor(minX - pad), 0, sourceWidth - 1),
w = clamp(floor(boxW + pad * 2), 1, sourceWidth - x), same for y and h. -/
def extractBoxApp (pts : List (ℚ × ℚ)) (sw sh : ℤ) (padFrac : ℚ) : Box :=
  let xs := pts.map Prod.fst
  let ys := pts.map Prod.snd
  let minX := listMin xs
  let maxX := listMax xs
  let minY := listMin ys
  let maxY := listMax ys
  let boxW := maxX - minX
  let boxH := maxY - minY
  let pad := padFrac * max boxW boxH
  let x := clampJS ⌊minX - pad⌋ 0 (sw - 1)
  let y := clampJS ⌊minY - pad⌋ 0 (sh - 1)
  let w := clampJS ⌊boxW + pad * 2⌋ 1 (sw - x)
  let h := clampJS ⌊boxH + pad * 2⌋ 1 (sh - y)
  ⟨x, y, w, h⟩

/-- Region extractor of the scan-loop variants (part 001 loopDetect and
part 002 decode callback):
cropX = Math.max(0, Math.floor(minX - pad)),
cropW = Math.min(vw - cropX, Math.floor(qrW + pad * 2)), same for y and h. -/
def extractBoxScan (pts : List (ℚ × ℚ)) (vw vh : ℤ) (padFrac : ℚ) : Box :=
  let xs := pts.map Prod.fst
  let ys := pts.map Prod.snd
  let minX := listMin xs
  let maxX := listMax xs
  let minY := listMin ys
  let maxY := listMax ys
  let qrW := maxX - minX
  let qrH := maxY - minY
  let pad := padFrac * max qrW qrH
  let cropX := max 0 ⌊minX - pad⌋
  let cropY := max 0 ⌊minY - pad⌋
  let cropW := min (vw - cropX) ⌊qrW + pad * 2⌋
  let cropH := min (vh - cropY) ⌊qrH + pad * 2⌋
  ⟨cropX, cropY, cropW, cropH⟩

/-- Patch sampler, common to captureQrRegion (part 001, part 002) and
handleCapture of App.jsx: patchSize = Math.floor(min(w, h) * frac),
centre the square patch, clamp its top-left corner into the crop.
Returns (patchSize, px, py). -/
def patchRect (w h : ℤ) (frac : ℚ) : ℤ × ℤ × ℤ :=
  let baseSize := min w h
  let patchSize := ⌊(baseSize : ℚ) * frac⌋
  let cx := ⌊(w : ℚ) / 2⌋
  let cy := ⌊(h : ℚ) / 2⌋
  let px0 := cx - ⌊(patchSize : ℚ) / 2⌋
  let py0 := cy - ⌊(patchSize : ℚ) / 2⌋
  let px1 := if px0 < 0 then 0 else px0
  let py1 := if py0 < 0 then 0 else py0
  let px2 := if px1 + patchSize > w then w - patchSize else px1
  let py2 := if py1 + patchSize > h then h - patchSize else py1
  (patchSize, px2, py2)

/-- C1: for every source frame of positive integer dimensions and every
list of at least 3 corner points, the padded and clamped bounding box of
both region extractor variants stays inside the frame:
0 ≤ x, 0 ≤ y, x + w ≤ frameWidth and y + h ≤ frameHeight. -/
theorem regionExtractor_box_in_frame
    (pts : List (ℚ × ℚ)) (sw sh : ℤ) (padFrac : ℚ)
    (_hpts : 3 ≤ pts.length) (hw : 1 ≤ sw) (hh : 1 ≤ sh) :
    (0 ≤ (extractBoxApp pts sw sh padFrac).x ∧
      0 ≤ (extractBoxApp pts sw sh padFrac).y ∧
      (extractBoxApp pts sw sh padFrac).x + (extractBoxApp pts sw sh padFrac).w ≤ sw ∧
      (extractBoxApp pts sw sh padFrac).y + (extractBoxApp pts sw sh padFrac).h ≤ sh) ∧
    (0 ≤ (extractBoxScan pts sw sh padFrac).x ∧
      0 ≤ (extractBoxScan pts sw sh padFrac).y ∧
      (extractBoxScan pts sw sh padFrac).x + (extractBoxScan pts sw sh padFrac).w ≤ sw ∧
      (extractBoxScan pts sw sh padFrac).y + (extractBoxScan pts sw sh padFrac).h ≤ sh) := by
  unfold extractBoxApp extractBoxScan clampJS
  dsimp only
  constructor
  · constructor
    · exact le_max_left _ _
    constructor
    · exact le_max_left _ _
    constructor
    · -- x + w ≤ sw
      have hx : max 0 (min (sw - 1) ⌊listMin (pts.map Prod.fst) -
          padFrac * max (listMax (pts.map Prod.fst) - listMin (pts.map Prod.fst))
            (listMax (pts.map Prod.snd) - listMin (pts.map Prod.snd))⌋) ≤ sw - 1 := by
        apply max_le (by omega) (min_le_left _ _)
      set x := max 0 (min (sw - 1) ⌊listMin (pts.map Prod.fst) -
          padFrac * max (listMax (pts.map Prod.fst) - listMin (pts.map Prod.fst))
            (listMax (pts.map Prod.snd) - listMin (pts.map Prod.snd))⌋) with hxdef
      have hmin : min (sw - x) ⌊listMax (pts.map Prod.fst) - listMin (pts.map Prod.fst) +
          padFrac * max (listMax (pts.map Prod.fst) - listMin (pts.map Prod.fst))
            (listMax (pts.map Prod.snd) - listMin (pts.map Prod.snd)) * 2⌋ ≤ sw - x :=
        min_le_left _ _
      have : max 1 (min (sw - x) ⌊listMax (pts.map Prod.fst) - listMin (pts.map Prod.fst) +
          padFrac * max (listMax (pts.map Prod.fst) - listMin (pts.map Prod.fst))
            (listMax (pts.map Prod.snd) - listMin (pts.map Prod.snd)) * 2⌋) ≤ sw - x :=
        max_le (by omega) hmin
      omega
    · -- y + h ≤ sh
      have hy : max 0 (min (sh - 1) ⌊listMin (pts.map Prod.snd) -
          padFrac * max (listMax (pts.map Prod.fst) - listMin (pts.map Prod.fst))
            (listMax (pts.map Prod.snd) - listMin (pts.map Prod.snd))⌋) ≤ sh - 1 := by
        apply max_le (by omega) (min_le_left _ _)
      set y := max 0 (min (sh - 1) ⌊listMin (pts.map Prod.snd) -
          padFrac * max (listMax (pts.map Prod.fst) - listMin (pts.map Prod.fst))
            (listMax (pts.map Prod.snd) - listMin (pts.map Prod.snd))⌋) with hydef
      have hmin : min (sh - y) ⌊listMax (pts.map Prod.snd) - listMin (pts.map Prod.snd) +
          padFrac * max (listMax (pts.map Prod.fst) - listMin (pts.map Prod.fst))
            (listMax (pts.map Prod.snd) - listMin (pts.map Prod.snd)) * 2⌋ ≤ sh - y :=
        min_le_left _ _
      have : max 1 (min (sh - y) ⌊listMax (pts.map Prod.snd) - listMin (pts.map Prod.snd) +
          padFrac * max (listMax (pts.map Prod.fst) - listMin (pts.map Prod.fst))
            (listMax (pts.map Prod.snd) - listMin (pts.map Prod.snd)) * 2⌋) ≤ sh - y :=
        max_le (by omega) hmin
      omega
  · refine ⟨le_max_left _ _, le_max_left _ _, ?_, ?_⟩
    · have := min_le_left (sw - max 0 ⌊listMin (pts.map Prod.fst) -
          padFrac * max (listMax (pts.map Prod.fst) - listMin (pts.map Prod.fst))
            (listMax (pts.map Prod.snd) - listMin (pts.map Prod.snd))⌋)
        ⌊listMax (pts.map Prod.fst) - listMin (pts.map Prod.fst) +
          padFrac * max (listMax (pts.map Prod.fst) - listMin (pts.map Prod.fst))
            (listMax (pts.map Prod.snd) - listMin (pts.map Prod.snd)) * 2⌋
      omega
    · have := min_le_left (sh - max 0 ⌊listMin (pts.map Prod.snd) -
          padFrac * max (listMax (pts.map Prod.fst) - listMin (pts.map Prod.fst))
            (listMax (pts.map Prod.snd) - listMin (pts.map Prod.snd))⌋)
        ⌊listMax (pts.map Prod.snd) - listMin (pts.map Prod.snd) +
          padFrac * max (listMax (pts.map Prod.fst) - listMin (pts.map Prod.fst))
            (listMax (pts.map Prod.snd) - listMin (pts.map Prod.snd)) * 2⌋
      omega

/-- Witness for C1 at a concrete frame and corner list (spec scenario 1:
1000 by 1000 frame, corners of the 200 pixel square at (400,400), padding
ratio 5 percent). -/
theorem regionExtractor_box_in_frame_witness :
    (0 ≤ (extractBoxApp [(400, 400), (600, 400), (600, 600), (400, 600)] 1000 1000 (5/100)).x ∧
      0 ≤ (extractBoxApp [(400, 400), (600, 400), (600, 600), (400, 600)] 1000 1000 (5/100)).y ∧
      (extractBoxApp [(400, 400), (600, 400), (600, 600), (400, 600)] 1000 1000 (5/100)).x +
        (extractBoxApp [(400, 400), (600, 400), (600, 600), (400, 600)] 1000 1000 (5/100)).w ≤ 1000 ∧
      (extractBoxApp [(400, 400), (600, 400), (600, 600), (400, 600)] 1000 1000 (5/100)).y +
        (extractBoxApp [(400, 400), (600, 400), (600, 600), (400, 600)] 1000 1000 (5/100)).h ≤ 1000) ∧
    (0 ≤ (extractBoxScan [(400, 400), (600, 400), (600, 600), (400, 600)] 1000 1000 (5/100)).x ∧
      0 ≤ (extractBoxScan [(400, 400), (600, 400), (600, 600), (400, 600)] 1000 1000 (5/100)).y ∧
      (extractBoxScan [(400, 400), (600, 400), (600, 600), (400, 600)] 1000 1000 (5/100)).x +
        (extractBoxScan [(400, 400), (600, 400), (600, 600), (400, 600)] 1000 1000 (5/100)).w ≤ 1000 ∧
      (extractBoxScan [(400, 400), (600, 400), (600, 600), (400, 600)] 1000 1000 (5/100)).y +
        (extractBoxScan [(400, 400), (600, 400), (600, 600), (400, 600)] 1000 1000 (5/100)).h ≤ 1000) :=
  regionExtractor_box_in_frame
    [(400, 400), (600, 400), (600, 600), (400, 600)] 1000 1000 (5/100)
    (by decide) (by decide) (by decide)

/-- C2: for a crop of size w by h (both at least 1) and a fraction between
0 and 1, the sampled patch has side floor(min(w, h) * frac) and lies
entirely inside the crop. -/
theorem patchSampler_in_crop (w h : ℤ) (frac : ℚ)
    (hw : 1 ≤ w) (hh : 1 ≤ h) (hf0 : 0 ≤ frac) (hf1 : frac ≤ 1) :
    (patchRect w h frac).1 = ⌊((min w h : ℤ) : ℚ) * frac⌋ ∧
    0 ≤ (patchRect w h frac).2.1 ∧
    (patchRect w h frac).2.1 + (patchRect w h frac).1 ≤ w ∧
    0 ≤ (patchRect w h frac).2.2 ∧
    (patchRect w h frac).2.2 + (patchRect w h frac).1 ≤ h := by
  have hbase : (1 : ℤ) ≤ min w h := le_min hw hh
  have hp0 : 0 ≤ ⌊((min w h : ℤ) : ℚ) * frac⌋ := by
    apply Int.floor_nonneg.mpr
    have : (0 : ℚ) ≤ ((min w h : ℤ) : ℚ) := by exact_mod_cast le_trans zero_le_one hbase
    exact mul_nonneg this hf0
  have hpw : ⌊((min w h : ℤ) : ℚ) * frac⌋ ≤ w := by
    have h1 : ((min w h : ℤ) : ℚ) * frac ≤ ((min w h : ℤ) : ℚ) := by
      have hnn : (0 : ℚ) ≤ ((min w h : ℤ) : ℚ) := by exact_mod_cast le_trans zero_le_one hbase
      calc ((min w h : ℤ) : ℚ) * frac ≤ ((min w h : ℤ) : ℚ) * 1 :=
            mul_le_mul_of_nonneg_left hf1 hnn
        _ = ((min w h : ℤ) : ℚ) := mul_one _
    have h2 : ⌊((min w h : ℤ) : ℚ) * frac⌋ ≤ ⌊((min w h : ℤ) : ℚ)⌋ := Int.floor_le_floor h1
    rw [Int.floor_intCast] at h2
    exact le_trans h2 (min_le_left _ _)
  have hph : ⌊((min w h : ℤ) : ℚ) * frac⌋ ≤ h := by
    have h1 : ((min w h : ℤ) : ℚ) * frac ≤ ((min w h : ℤ) : ℚ) := by
      have hnn : (0 : ℚ) ≤ ((min w h : ℤ) : ℚ) := by exact_mod_cast le_trans zero_le_one hbase
      calc ((min w h : ℤ) : ℚ) * frac ≤ ((min w h : ℤ) : ℚ) * 1 :=
            mul_le_mul_of_nonneg_left hf1 hnn
        _ = ((min w h : ℤ) : ℚ) := mul_one _
    have h2 : ⌊((min w h : ℤ) : ℚ) * frac⌋ ≤ ⌊((min w h : ℤ) : ℚ)⌋ := Int.floor_le_floor h1
    rw [Int.floor_intCast] at h2
    exact le_trans h2 (min_le_right _ _)
  unfold patchRect
  dsimp only
  refine ⟨rfl, ?_⟩
  set p := ⌊((min w h : ℤ) : ℚ) * frac⌋ with hpdef
  set cx := ⌊(w : ℚ) / 2⌋ with hcx
  set cy := ⌊(h : ℚ) / 2⌋ with hcy
  set q := ⌊(p : ℚ) / 2⌋ with hq
  have hq0 : 0 ≤ q := Int.floor_nonneg.mpr (by positivity)
  have hcx0 : 0 ≤ cx := Int.floor_nonneg.mpr (by positivity)
  have hcy0 : 0 ≤ cy := Int.floor_nonneg.mpr (by positivity)
  constructor
  · -- 0 ≤ px
    by_cases h2 : (if (if cx - q < 0 then 0 else cx - q) + p > w then w - p
        else (if cx - q < 0 then 0 else cx - q)) = w - p
    · rw [h2]; omega
    · split at h2
      · omega
      · split <;> omega
  constructor
  · -- px + p ≤ w
    split
    · omega
    · split <;> omega
  constructor
  · by_cases h2 : (if (if cy - q < 0 then 0 else cy - q) + p > h then h - p
        else (if cy - q < 0 then 0 else cy - q)) = h - p
    · rw [h2]; omega
    · split at h2
      · omega
      · split <;> omega
  · split
    · omega
    · split <;> omega

/-- Witness for C2 at the spec scenario 2 input: a 220 by 220 crop with
fraction 0.4 (patch side 88). -/
theorem patchSampler_in_crop_witness :
    (patchRect 220 220 (2/5)).1 = ⌊((min 220 220 : ℤ) : ℚ) * (2/5)⌋ ∧
    0 ≤ (patchRect 220 220 (2/5)).2.1 ∧
    (patchRect 220 220 (2/5)).2.1 + (patchRect 220 220 (2/5)).1 ≤ 220 ∧
    0 ≤ (patchRect 220 220 (2/5)).2.2 ∧
    (patchRect 220 220 (2/5)).2.2 + (patchRect 220 220 (2/5)).1 ≤ 220 :=
  patchSampler_in_crop 220 220 (2/5) (by decide) (by decide) (by norm_num) (by norm_num)

/-! ## Stability tracker (part 001 and part 002) -/

/-- STABILITY_FRAMES constant: how many recent frames must agree. -/
def STABILITY_FRAMES : ℕ := 4

/-- POSITION_TOL_PX constant: allowed movement of the QR centre. -/
def POSITION_TOL_PX : ℚ := 8

/-- SIZE_TOL constant: allowed relative size change (0.18 in the source). -/
def SIZE_TOL : ℚ := 18/100

/-- pushQrBox: append the box to the history, evict the oldest sample when
the capacity STABILITY_FRAMES is exceeded. -/
def pushQrBox (hist : List Box) (box : Box) : List Box :=
  let h1 := hist ++ [box]
  if STABILITY_FRAMES < h1.length then h1.tail else h1

/-- getAverageBox: componentwise arithmetic mean of the history, rounded
with Math.round; null on an empty history. -/
def getAverageBox (hist : List Box) : Option Box :=
  if hist.length = 0 then none
  else
    let n : ℚ := hist.length
    some ⟨round ((hist.map fun b => (b.x : ℚ)).sum / n),
          round ((hist.map fun b => (b.y : ℚ)).sum / n),
          round ((hist.map fun b => (b.w : ℚ)).sum / n),
          round ((hist.map fun b => (b.h : ℚ)).sum / n)⟩

/-- The loop body test of isStable: true when the sample b disagrees with
the average box beyond the position or size tolerance. -/
def boxViolates (b avg : Box) : Bool :=
  let cx : ℚ := (b.x : ℚ) + (b.w : ℚ) / 2
  let cy : ℚ := (b.y : ℚ) + (b.h : ℚ) / 2
  let cax : ℚ := (avg.x : ℚ) + (avg.w : ℚ) / 2
  let cay : ℚ := (avg.y : ℚ) + (avg.h : ℚ) / 2
  let centerDx := |cx - cax|
  let centerDy := |cy - cay|
  let sizeDrW := |(b.w : ℚ) - (avg.w : ℚ)| / (avg.w : ℚ)
  let sizeDrH := |(b.h : ℚ) - (avg.h : ℚ)| / (avg.h : ℚ)
  decide (centerDx > POSITION_TOL_PX) || decide (centerDy > POSITION_TOL_PX) ||
    decide (sizeDrW > SIZE_TOL) || decide (sizeDrH > SIZE_TOL)

/-- isStable (part 002): false when fewer than STABILITY_FRAMES samples are
present or the average is null; otherwise every sample of the window must
stay within the tolerances of the average box. -/
def isStable (hist : List Box) : Bool :=
  if hist.length < STABILITY_FRAMES then false
  else
    match getAverageBox hist with
    | none => false
    | some avg => hist.all fun b => !(boxViolates b avg)

/-- Modelled from the claim text, for comparison with getAverageBox: the
average box is the componentwise mean of the window rounded to integers. -/
def specAverageBox (hist : List Box) : Box :=
  ⟨round ((hist.map fun b => (b.x : ℚ)).sum / (hist.length : ℚ)),
   round ((hist.map fun b => (b.y : ℚ)).sum / (hist.length : ℚ)),
   round ((hist.map fun b => (b.w : ℚ)).sum / (hist.length : ℚ)),
   round ((hist.map fun b => (b.h : ℚ)).sum / (hist.length : ℚ))⟩

/-- C3: isStable is false on a short window; on a full window it is true
exactly when every sample deviates from the rounded mean box by at most
POSITION_TOL_PX in each centre axis and by at most SIZE_TOL in relative
width and height. -/
theorem isStable_characterisation (hist : List Box) :
    (hist.length < STABILITY_FRAMES → isStable hist = false) ∧
    (hist.length = STABILITY_FRAMES →
      getAverageBox hist = some (specAverageBox hist) ∧
      (isStable hist = true ↔ ∀ b ∈ hist,
        |((b.x : ℚ) + (b.w : ℚ) / 2) -
            (((specAverageBox hist).x : ℚ) + ((specAverageBox hist).w : ℚ) / 2)| ≤
          POSITION_TOL_PX ∧
        |((b.y : ℚ) + (b.h : ℚ) / 2) -
            (((specAverageBox hist).y : ℚ) + ((specAverageBox hist).h : ℚ) / 2)| ≤
          POSITION_TOL_PX ∧
        |(b.w : ℚ) - ((specAverageBox hist).w : ℚ)| / ((specAverageBox hist).w : ℚ) ≤
          SIZE_TOL ∧
        |(b.h : ℚ) - ((specAverageBox hist).h : ℚ)| / ((specAverageBox hist).h : ℚ) ≤
          SIZE_TOL)) := by
  constructor
  · intro hlen
    simp [isStable, hlen]
  · intro hlen
    have hne : hist.length ≠ 0 := by rw [hlen]; simp [STABILITY_FRAMES]
    have havg : getAverageBox hist = some (specAverageBox hist) := by
      simp [getAverageBox, hne, specAverageBox]
    refine ⟨havg, ?_⟩
    have hnotlt : ¬ hist.length < STABILITY_FRAMES := by omega
    rw [isStable, if_neg hnotlt, havg]
    rw [List.all_eq_true]
    constructor
    · intro hall b hb
      have := hall b hb
      rw [Bool.not_eq_true'] at this
      simp only [boxViolates, Bool.or_eq_false_iff, decide_eq_false_iff_not, not_lt] at this
      exact ⟨this.1.1.1, this.1.1.2, this.1.2, this.2⟩
    · intro hall b hb
      have := hall b hb
      rw [Bool.not_eq_true']
      simp only [boxViolates, Bool.or_eq_false_iff, decide_eq_false_iff_not, not_lt]
      exact ⟨⟨⟨this.1, this.2.1⟩, this.2.2.1⟩, this.2.2.2⟩

/-- Witness for C3: four identical boxes (spec scenario 3) form a stable
window. -/
theorem isStable_characterisation_witness :
    isStable [⟨100, 100, 200, 200⟩, ⟨100, 100, 200, 200⟩,
      ⟨100, 100, 200, 200⟩, ⟨100, 100, 200, 200⟩] = true :=
  (((isStable_characterisation [⟨100, 100, 200, 200⟩, ⟨100, 100, 200, 200⟩,
      ⟨100, 100, 200, 200⟩, ⟨100, 100, 200, 200⟩]).2 rfl).2).mpr (by
    intro b hb
    simp only [List.mem_cons, List.not_mem_nil, or_false] at hb
    have hb' : b = ⟨100, 100, 200, 200⟩ := by
      rcases hb with h | h | h | h <;> exact h
    subst hb'
    refine ⟨?_, ?_, ?_, ?_⟩ <;>
      norm_num [specAverageBox, POSITION_TOL_PX, SIZE_TOL, round_eq])

/-! ## Capture orchestrator (part 002 decode callback with lock flag) -/

/-- A decoder result delivered to the per-frame callback: decoded text and
the raw result points. -/
structure Detection where
  text : String
  pts : List (ℚ × ℚ)

/-- One invocation of the per-frame decode callback: the optional decoder
result together with the video dimensions at that tick. -/
structure FrameInput where
  res : Option Detection
  vw : ℤ
  vh : ℤ

/-- Session state confined to one scanning session: the lock flag, the
stability history and the published outputs. -/
structure ScanState where
  locked : Bool
  hist : List Box
  result : Option String
  qrBase : Option Box
  centerBase : Option (ℤ × ℤ × ℤ)

/-- BOX_FRACTION constant: fraction of min(videoWidth, videoHeight) for
the square aim box. -/
def BOX_FRACTION : ℚ := 1/2

/-- CENTER_FRACTION constant of part 002: centre patch fraction 0.4. -/
def CENTER_FRACTION : ℚ := 2/5

/-- PAD_FRAC constant of part 002: padding ratio 0.05. -/
def PAD_FRAC : ℚ := 5/100

/-- The square aim box of the decode callback: (boxSize, boxX, boxY). -/
def aimBox (vw vh : ℤ) : ℤ × ℤ × ℤ :=
  let boxSize := ⌊((min vw vh : ℤ) : ℚ) * BOX_FRACTION⌋
  let boxX := ⌊((vw - boxSize : ℤ) : ℚ) / 2⌋
  let boxY := ⌊((vh - boxSize : ℤ) : ℚ) / 2⌋
  (boxSize, boxX, boxY)

/-- The detection lies fully inside the aim box (the negation of the
reject test of the callback). -/
def insideAimBox (pts : List (ℚ × ℚ)) (vw vh : ℤ) : Prop :=
  let boxSize := (aimBox vw vh).1
  let boxX := (aimBox vw vh).2.1
  let boxY := (aimBox vw vh).2.2
  ¬(listMin (pts.map Prod.fst) < (boxX : ℚ) ∨
    listMin (pts.map Prod.snd) < (boxY : ℚ) ∨
    listMax (pts.map Prod.fst) > ((boxX + boxSize : ℤ) : ℚ) ∨
    listMax (pts.map Prod.snd) > ((boxY + boxSize : ℤ) : ℚ))

instance (pts : List (ℚ × ℚ)) (vw vh : ℤ) : Decidable (insideAimBox pts vw vh) := by
  unfold insideAimBox
  infer_instance

/-- Embedding of the decode callback of part 002 startCameraAndScan: early
return when locked or without result or dimensions, reject and clear the
history when the detection leaves the aim box, push the crop box, and on
the first stable detection set the lock flag, publish the decoded text,
the stable crop and the centre patch, and clear the history. -/
def decodeCallback (s : ScanState) (inp : FrameInput) : ScanState :=
  match inp.res with
  | none => s
  | some det =>
    if s.locked then s
    else if inp.vw = 0 ∨ inp.vh = 0 then s
    else if det.pts.length < 3 then s
    else if ¬ insideAimBox det.pts inp.vw inp.vh then { s with hist := [] }
    else
      let qrBox := extractBoxScan det.pts inp.vw inp.vh PAD_FRAC
      let hist1 := pushQrBox s.hist qrBox
      if isStable hist1 = false then { s with hist := hist1 }
      else
        match getAverageBox hist1 with
        | none =>
            { locked := true, hist := [], result := some det.text,
              qrBase := s.qrBase, centerBase := s.centerBase }
        | some stableBox =>
            { locked := true, hist := [], result := some det.text,
              qrBase := some stableBox,
              centerBase := some (patchRect stableBox.w stableBox.h CENTER_FRACTION) }

/-- A callback invocation succeeds: a decoder result is present, the
session is not locked, the frame has usable dimensions, at least three
points lie inside the aim box, and the pushed box history is stable. -/
def callbackSucceeds (s : ScanState) (inp : FrameInput) : Prop :=
  ∃ det, inp.res = some det ∧ s.locked = false ∧ inp.vw ≠ 0 ∧ inp.vh ≠ 0 ∧
    3 ≤ det.pts.length ∧ insideAimBox det.pts inp.vw inp.vh ∧
    isStable (pushQrBox s.hist (extractBoxScan det.pts inp.vw inp.vh PAD_FRAC)) = true

/-- Number of callback invocations of a run that commit a capture, that
is, that turn the lock flag on. -/
def commitCount : ScanState → List FrameInput → ℕ
  | _, [] => 0
  | s, i :: rest =>
    (if (decodeCallback s i).locked = true ∧ s.locked = false then 1 else 0) +
      commitCount (decodeCallback s i) rest

/-- Once locked, the callback is the identity on the session state. -/
theorem decodeCallback_locked_id (s : ScanState) (inp : FrameInput)
    (h : s.locked = true) : decodeCallback s inp = s := by
  unfold decodeCallback
  cases inp.res with
  | none => rfl
  | some det => simp [h]

/-- From a locked state no further capture is ever committed. -/
theorem commitCount_locked (inps : List FrameInput) :
    ∀ s : ScanState, s.locked = true → commitCount s inps = 0 := by
  induction inps with
  | nil => intro s _; rfl
  | cons i rest ih =>
    intro s h
    unfold commitCount
    rw [decodeCallback_locked_id s i h]
    simp [h, ih s h]

/-- C4: the session lock commits at most one capture. A locked state
absorbs every further callback unchanged, the first succeeding callback
sets the lock flag, and any run of callbacks commits at most once. -/
theorem capture_at_most_once (s : ScanState) (inp : FrameInput)
    (inps : List FrameInput) :
    (s.locked = true → decodeCallback s inp = s) ∧
    (callbackSucceeds s inp → (decodeCallback s inp).locked = true) ∧
    commitCount s inps ≤ 1 := by
  refine ⟨decodeCallback_locked_id s inp, ?_, ?_⟩
  · rintro ⟨det, hres, hlock, hvw, hvh, hpts, hin, hstab⟩
    unfold decodeCallback
    rw [hres]
    have h3 : ¬ det.pts.length < 3 := by omega
    simp only [hlock, Bool.false_eq_true, if_false, hvw, hvh, or_self, h3, hin,
      not_true_eq_false, not_false_eq_true, if_true, if_false, hstab]
    simp only [Bool.true_eq_false, if_false]
    cases getAverageBox (pushQrBox s.hist (extractBoxScan det.pts inp.vw inp.vh PAD_FRAC)) with
    | none => rfl
    | some b => rfl
  · induction inps generalizing s with
    | nil => exact Nat.le_refl 0 |>.trans (by omega)
    | cons i rest ih =>
      unfold commitCount
      by_cases hc : (decodeCallback s i).locked = true ∧ s.locked = false
      · rw [if_pos hc, commitCount_locked rest _ hc.1]
      · rw [if_neg hc]
        exact Nat.le_trans (by simpa using ih (decodeCallback s i)) (le_refl 1)

/-- Witness for C4: a locked session state absorbs a further frame with a
decoder result without any change. -/
theorem capture_at_most_once_witness :
    decodeCallback ⟨true, [], none, none, none⟩
      ⟨some ⟨"qr-text", [(10, 10), (20, 10), (10, 20)]⟩, 100, 100⟩ =
      ⟨true, [], none, none, none⟩ :=
  (capture_at_most_once ⟨true, [], none, none, none⟩
    ⟨some ⟨"qr-text", [(10, 10), (20, 10), (10, 20)]⟩, 100, 100⟩ []).1 rfl

/-! ## Image enhancer: sharpen (App.jsx) and unsharp mask (part 001, 002, 004) -/

/-- The clamping of a convolved channel value to the byte range, as the two
ifs of the source and as enforced by a clamped byte store. -/
def clamp255 (v : ℤ) : ℤ := if v < 0 then 0 else if v > 255 then 255 else v

/-- Rounding of a float stored into a Uint8ClampedArray cell: round half
to even. -/
def roundHalfEven (q : ℚ) : ℤ :=
  if q - ⌊q⌋ < 1/2 then ⌊q⌋
  else if q - ⌊q⌋ > 1/2 then ⌊q⌋ + 1
  else if Even ⌊q⌋ then ⌊q⌋ else ⌊q⌋ + 1

theorem clamp255_nonneg (v : ℤ) : 0 ≤ clamp255 v := by
  unfold clamp255
  split
  · omega
  · split <;> omega

theorem clamp255_le (v : ℤ) : clamp255 v ≤ 255 := by
  unfold clamp255
  split
  · omega
  · split <;> omega

theorem clamp255_of_mem (v : ℤ) (h0 : 0 ≤ v) (h1 : v ≤ 255) : clamp255 v = v := by
  unfold clamp255
  split
  · omega
  · split <;> omega

theorem toNat_clamp255_le (v : ℤ) : (clamp255 v).toNat ≤ 255 := by
  have h1 := clamp255_le v
  have h2 := clamp255_nonneg v
  omega

theorem roundHalfEven_natCast (n : ℕ) : roundHalfEven (n : ℚ) = n := by
  unfold roundHalfEven
  rw [Int.floor_natCast]
  norm_num

/-- Embedding of applySharpen of App.jsx, as the value of the output
buffer at channel c of pixel (x, y). Interior pixels receive the clamped
3x3 convolution with kernel 0 -1 0; -1 5 -1; 0 -1 0 on the colour
channels and the input alpha on channel 3; the border copy loops write the
input value at the first and last row and column; all other cells keep the
zero fill of the freshly allocated output array. -/
def applySharpen (w h : ℕ) (data : ℕ → ℕ) (x y c : ℕ) : ℕ :=
  let stride := w * 4
  let idx := (y * w + x) * 4
  if 1 ≤ x ∧ x + 1 < w ∧ 1 ≤ y ∧ y + 1 < h then
    if c < 3 then
      let tl : ℤ := data (idx - stride - 4 + c)
      let t : ℤ := data (idx - stride + c)
      let tr : ℤ := data (idx - stride + 4 + c)
      let l : ℤ := data (idx - 4 + c)
      let m : ℤ := data (idx + c)
      let r : ℤ := data (idx + 4 + c)
      let bl : ℤ := data (idx + stride - 4 + c)
      let b : ℤ := data (idx + stride + c)
      let br : ℤ := data (idx + stride + 4 + c)
      (clamp255 (0 * tl + -1 * t + 0 * tr + -1 * l + 5 * m + -1 * r +
        0 * bl + -1 * b + 0 * br)).toNat
    else data (idx + 3)
  else if x < w ∧ y < h then data (idx + c)
  else 0

/-- The border-copy, alpha and clamp behaviour of applySharpen of
App.jsx. -/
theorem applySharpen_props (w h : ℕ) (data : ℕ → ℕ) :
    (∀ x y c, x < w → y < h → c < 4 → (x = 0 ∨ x = w - 1 ∨ y = 0 ∨ y = h - 1) →
      applySharpen w h data x y c = data ((y * w + x) * 4 + c)) ∧
    (∀ x y, x < w → y < h → applySharpen w h data x y 3 = data ((y * w + x) * 4 + 3)) ∧
    (∀ x y c, 1 ≤ x → x + 1 < w → 1 ≤ y → y + 1 < h → c < 3 →
      applySharpen w h data x y c ≤ 255) := by
  refine ⟨?_, ?_, ?_⟩
  · intro x y c hx hy _hc hborder
    have hnotint : ¬(1 ≤ x ∧ x + 1 < w ∧ 1 ≤ y ∧ y + 1 < h) := by omega
    unfold applySharpen
    rw [if_neg hnotint, if_pos ⟨hx, hy⟩]
  · intro x y hx hy
    unfold applySharpen
    by_cases hint : 1 ≤ x ∧ x + 1 < w ∧ 1 ≤ y ∧ y + 1 < h
    · rw [if_pos hint, if_neg (by omega)]
    · rw [if_neg hint, if_pos ⟨hx, hy⟩]
  · intro x y c hx hxw hy hyh hc
    unfold applySharpen
    rw [if_pos ⟨hx, hxw, hy, hyh⟩, if_pos hc]
    exact toNat_clamp255_le _

/-- Embedding of applyMildSharpen of part 001: the 3x3 convolution with
kernel 0 -1 0; -1 4.1 -1; 0 -1 0 is clamped and written only for interior
pixels (interior alpha copied); there is no border-copy pass, so every
cell of the first and last row and column keeps the zero fill of the
freshly allocated output array. -/
def applyMildSharpen (w h : ℕ) (data : ℕ → ℕ) (x y c : ℕ) : ℕ :=
  let stride := w * 4
  let idx := (y * w + x) * 4
  if 1 ≤ x ∧ x + 1 < w ∧ 1 ≤ y ∧ y + 1 < h then
    if c < 3 then
      let tl : ℚ := data (idx - stride - 4 + c)
      let t : ℚ := data (idx - stride + c)
      let tr : ℚ := data (idx - stride + 4 + c)
      let l : ℚ := data (idx - 4 + c)
      let m : ℚ := data (idx + c)
      let r : ℚ := data (idx + 4 + c)
      let bl : ℚ := data (idx + stride - 4 + c)
      let b : ℚ := data (idx + stride + c)
      let br : ℚ := data (idx + stride + 4 + c)
      let val := 0 * tl + -1 * t + 0 * tr + -1 * l + 41/10 * m + -1 * r +
        0 * bl + -1 * b + 0 * br
      let val1 := max 0 (min 255 val)
      (clamp255 (roundHalfEven val1)).toNat
    else data (idx + 3)
  else 0

/-- Counterexample to C8 as frozen: on a constant buffer of byte value 7
the mild sharpen variant of part 001 writes 0 to the colour and the
alpha channel of the border pixel (0, 0) instead of copying the input
value 7 unchanged. -/
theorem applyMildSharpen_border_zeroed :
    applyMildSharpen 3 3 (fun _ => 7) 0 0 0 = 0 ∧
    applyMildSharpen 3 3 (fun _ => 7) 0 0 3 = 0 ∧
    applyMildSharpen 3 3 (fun _ => 7) 0 0 0 ≠ (fun _ => 7 : ℕ → ℕ) ((0 * 3 + 0) * 4 + 0) ∧
    applyMildSharpen 3 3 (fun _ => 7) 0 0 3 ≠ (fun _ => 7 : ℕ → ℕ) ((0 * 3 + 0) * 4 + 3) := by
  refine ⟨rfl, rfl, ?_, ?_⟩ <;> decide

/-- C8 (corrected): for every RGBA buffer of size at least 1 by 1, the
App.jsx sharpen filter copies the first and last row and column
unchanged, keeps the alpha channel of every pixel equal to the input
alpha, and clamps every convolved colour channel to the byte range; the
mild sharpen variant of part 001 instead leaves every border cell, alpha
included, at the zero fill of its output array, while still copying the
alpha of interior pixels and clamping every convolved colour channel. -/
theorem sharpen_filters_spec (w h : ℕ) (data : ℕ → ℕ) (hw : 1 ≤ w) (hh : 1 ≤ h) :
    ((∀ x y c, x < w → y < h → c < 4 → (x = 0 ∨ x = w - 1 ∨ y = 0 ∨ y = h - 1) →
      applySharpen w h data x y c = data ((y * w + x) * 4 + c)) ∧
    (∀ x y, x < w → y < h → applySharpen w h data x y 3 = data ((y * w + x) * 4 + 3)) ∧
    (∀ x y c, 1 ≤ x → x + 1 < w → 1 ≤ y → y + 1 < h → c < 3 →
      applySharpen w h data x y c ≤ 255)) ∧
    ((∀ x y c, x < w → y < h → c < 4 → (x = 0 ∨ x = w - 1 ∨ y = 0 ∨ y = h - 1) →
      applyMildSharpen w h data x y c = 0) ∧
    (∀ x y, 1 ≤ x → x + 1 < w → 1 ≤ y → y + 1 < h →
      applyMildSharpen w h data x y 3 = data ((y * w + x) * 4 + 3)) ∧
    (∀ x y c, 1 ≤ x → x + 1 < w → 1 ≤ y → y + 1 < h → c < 3 →
      applyMildSharpen w h data x y c ≤ 255)) := by
  refine ⟨applySharpen_props w h data, ?_, ?_, ?_⟩
  · intro x y c _hx _hy _hc hborder
    have hnotint : ¬(1 ≤ x ∧ x + 1 < w ∧ 1 ≤ y ∧ y + 1 < h) := by omega
    unfold applyMildSharpen
    rw [if_neg hnotint]
  · intro x y hx hxw hy hyh
    unfold applyMildSharpen
    rw [if_pos ⟨hx, hxw, hy, hyh⟩, if_neg (by omega)]
  · intro x y c hx hxw hy hyh hc
    unfold applyMildSharpen
    rw [if_pos ⟨hx, hxw, hy, hyh⟩, if_pos hc]
    exact toNat_clamp255_le _

/-- Witness for C8 on a concrete 3 by 3 buffer: a clamped interior
channel of applySharpen and a zeroed border cell of applyMildSharpen. -/
theorem sharpen_filters_spec_witness :
    applySharpen 3 3 (fun i => i % 7) 1 1 0 ≤ 255 ∧
    applyMildSharpen 3 3 (fun i => i % 7) 0 0 0 = 0 :=
  ⟨(sharpen_filters_spec 3 3 (fun i => i % 7) (by decide) (by decide)).1.2.2 1 1 0
      (by decide) (by decide) (by decide) (by decide) (by decide),
    (sharpen_filters_spec 3 3 (fun i => i % 7) (by decide) (by decide)).2.1 0 0 0
      (by decide) (by decide) (by decide) (Or.inl rfl)⟩

/-- Embedding of the 3x3 box blur buffer of applyUnsharp: interior colour
channels hold the rounded 9-tap average, the interior alpha holds the
input alpha, and every other cell keeps the zero fill of the freshly
allocated blur array. -/
def boxBlur (w h : ℕ) (data : ℕ → ℕ) (x y c : ℕ) : ℕ :=
  let w4 := w * 4
  let idx := (y * w + x) * 4
  if 1 ≤ x ∧ x + 1 < w ∧ 1 ≤ y ∧ y + 1 < h then
    if c < 3 then
      let sum : ℚ := (data (idx - w4 - 4 + c) : ℚ) + (data (idx - w4 + c) : ℚ) +
        (data (idx - w4 + 4 + c) : ℚ) + (data (idx - 4 + c) : ℚ) +
        (data (idx + c) : ℚ) + (data (idx + 4 + c) : ℚ) +
        (data (idx + w4 - 4 + c) : ℚ) + (data (idx + w4 + c) : ℚ) +
        (data (idx + w4 + 4 + c) : ℚ)
      (clamp255 (roundHalfEven (sum / 9))).toNat
    else data (idx + 3)
  else 0

/-- Embedding of applyUnsharp (identical in part 001, part 002 and
part 004): per colour channel out = orig + amount * (orig - b) clamped to
the byte range, where b falls back to orig whenever the blur cell is zero
(the JS expression blur[i + c] || orig); the alpha channel is copied. -/
def applyUnsharp (w h : ℕ) (data : ℕ → ℕ) (amount : ℚ) (x y c : ℕ) : ℕ :=
  let idx := (y * w + x) * 4
  if c = 3 then data (idx + 3)
  else
    let orig : ℚ := data (idx + c)
    let bl := boxBlur w h data x y c
    let b : ℚ := if bl = 0 then orig else (bl : ℚ)
    let val := orig + amount * (orig - b)
    let val1 := if val < 0 then 0 else if val > 255 then 255 else val
    (clamp255 (roundHalfEven val1)).toNat

theorem applyUnsharp_fixed_channel (w h : ℕ) (data : ℕ → ℕ)
    (hdata : ∀ i, data i ≤ 255) (amount : ℚ) (x y c : ℕ) (hc : ¬ c = 3)
    (hb : (if boxBlur w h data x y c = 0 then ((data ((y * w + x) * 4 + c) : ℚ))
        else ((boxBlur w h data x y c : ℕ) : ℚ)) = (data ((y * w + x) * 4 + c) : ℚ) ∨
        amount = 0) :
    applyUnsharp w h data amount x y c = data ((y * w + x) * 4 + c) := by
  unfold applyUnsharp
  rw [if_neg hc]
  have hval : (data ((y * w + x) * 4 + c) : ℚ) +
      amount * ((data ((y * w + x) * 4 + c) : ℚ) -
        (if boxBlur w h data x y c = 0 then ((data ((y * w + x) * 4 + c) : ℚ))
          else ((boxBlur w h data x y c : ℕ) : ℚ))) =
      (data ((y * w + x) * 4 + c) : ℚ) := by
    rcases hb with hb | hb
    · rw [hb]; ring
    · rw [hb]; ring
  dsimp only
  rw [hval]
  have h0 : ¬ ((data ((y * w + x) * 4 + c) : ℚ) < 0) := by
    simp [Nat.cast_nonneg, not_lt]
  have h255 : ¬ ((data ((y * w + x) * 4 + c) : ℚ) > 255) := by
    have := hdata ((y * w + x) * 4 + c)
    rw [not_lt]
    exact_mod_cast this
  rw [if_neg h0, if_neg h255, roundHalfEven_natCast,
    clamp255_of_mem _ (by positivity) (by exact_mod_cast hdata ((y * w + x) * 4 + c))]
  exact Int.toNat_natCast _

/-- C9: applying the unsharp mask with amount 0 returns every channel of
every pixel, border pixels included, unchanged. -/
theorem applyUnsharp_amount_zero (w h : ℕ) (data : ℕ → ℕ)
    (hdata : ∀ i, data i ≤ 255) :
    ∀ x y c, x < w → y < h → c < 4 →
      applyUnsharp w h data 0 x y c = data ((y * w + x) * 4 + c) := by
  intro x y c _hx _hy _hc
  by_cases hc3 : c = 3
  · subst hc3
    unfold applyUnsharp
    rw [if_pos rfl]
  · exact applyUnsharp_fixed_channel w h data hdata 0 x y c hc3 (Or.inr rfl)

/-- Witness for C9 on a concrete 3 by 3 buffer. -/
theorem applyUnsharp_amount_zero_witness :
    applyUnsharp 3 3 (fun _ => 7) 0 1 1 0 = 7 :=
  applyUnsharp_amount_zero 3 3 (fun _ => 7) (fun _ => by norm_num) 1 1 0
    (by decide) (by decide) (by decide)

/-- C10: for every gain amount, the unsharp mask leaves the first and last
row and column unchanged: the blur is never computed there, so the cell
keeps its zero fill and the blur-or-original fallback substitutes the
original channel value. -/
theorem applyUnsharp_border_unchanged (w h : ℕ) (data : ℕ → ℕ)
    (hdata : ∀ i, data i ≤ 255) (amount : ℚ) :
    ∀ x y c, x < w → y < h → c < 4 → (x = 0 ∨ x = w - 1 ∨ y = 0 ∨ y = h - 1) →
      boxBlur w h data x y c = 0 ∧
      applyUnsharp w h data amount x y c = data ((y * w + x) * 4 + c) := by
  intro x y c hx hy _hc hborder
  have hnotint : ¬(1 ≤ x ∧ x + 1 < w ∧ 1 ≤ y ∧ y + 1 < h) := by omega
  have hblur : boxBlur w h data x y c = 0 := by
    unfold boxBlur
    rw [if_neg hnotint]
  refine ⟨hblur, ?_⟩
  by_cases hc3 : c = 3
  · subst hc3
    unfold applyUnsharp
    rw [if_pos rfl]
  · refine applyUnsharp_fixed_channel w h data hdata amount x y c hc3 (Or.inl ?_)
    rw [if_pos hblur]

/-- Witness for C10: a border pixel of a concrete 3 by 3 buffer with a
nonzero gain. -/
theorem applyUnsharp_border_unchanged_witness :
    boxBlur 3 3 (fun _ => 7) 0 0 0 = 0 ∧
    applyUnsharp 3 3 (fun _ => 7) (7/10) 0 0 0 = 7 :=
  applyUnsharp_border_unchanged 3 3 (fun _ => 7) (fun _ => by norm_num) (7/10) 0 0 0
    (by decide) (by decide) (by decide) (Or.inl rfl)

/-! ## Homography solver (App.jsx computeHomography, gaussSolveHomography) -/

/-- The 8 by 9 augmented DLT system, stored as a function matrix. -/
abbrev Mat8x9 := Fin 8 → Fin 9 → ℚ

/-- Near-zero pivot threshold 1e-9 of the source. -/
def PIVOT_EPS : ℚ := 1/1000000000

/-- Pivot selection of gaussSolveHomography: scan the rows below the
current one and keep the first index of maximal absolute value in the
current column. -/
def selectPivot (A : Mat8x9) (c : Fin 9) (r : Fin 8) : Fin 8 :=
  ((List.finRange 8).filter fun i => r < i).foldl
    (fun sel i => if |A sel c| < |A i c| then i else sel) r

/-- Row swap [A[row], A[sel]] = [A[sel], A[row]]. -/
def swapRows (A : Mat8x9) (r s : Fin 8) : Mat8x9 := fun i j =>
  if i = r then A s j else if i = s then A r j else A i j

/-- Division of the entries j ≥ col of the pivot row by the pivot. -/
def scaleRowFrom (A : Mat8x9) (r : Fin 8) (c : Fin 9) (d : ℚ) : Mat8x9 := fun i j =>
  if i = r ∧ c ≤ j then A i j / d else A i j

/-- Elimination step: for every row i other than the pivot row, subtract
factor * A[row][j] from the entries j ≥ col, with factor the value
A[i][col] captured before the row update. -/
def elimOthers (A : Mat8x9) (r : Fin 8) (c : Fin 9) : Mat8x9 := fun i j =>
  if i ≠ r ∧ c ≤ j then A i j - A i c * A r j else A i j

/-- The elimination loop of gaussSolveHomography, with an explicit fuel
counter standing for the remaining column iterations (the source loop
runs col from 0 while col < 8 and row < 8). Besides the matrix the
function returns the list of pivot values that were divided by. -/
def gaussLoopFuel : ℕ → Mat8x9 → ℕ → ℕ → List ℚ → Mat8x9 × List ℚ
  | 0, A, _, _, divs => (A, divs)
  | fuel + 1, A, col, row, divs =>
    if hcr : col < 8 ∧ row < 8 then
      let c : Fin 9 := ⟨col, by omega⟩
      let r : Fin 8 := ⟨row, hcr.2⟩
      let sel := selectPivot A c r
      if |A sel c| < PIVOT_EPS then
        gaussLoopFuel fuel A (col + 1) row divs
      else
        let A1 := swapRows A r sel
        let d := A1 r c
        let A2 := scaleRowFrom A1 r c d
        let A3 := elimOthers A2 r c
        gaussLoopFuel fuel A3 (col + 1) (row + 1) (divs ++ [d])
    else (A, divs)

/-- The full elimination run on an 8 by 9 system: 8 column iterations
starting at column 0, row 0. -/
def gaussElim (A : Mat8x9) : Mat8x9 × List ℚ := gaussLoopFuel 8 A 0 0 []

/-- The last column of the eliminated matrix, extended by the JS read
h[8] = A[8] ? A[8][8] : 0 of the missing ninth row. -/
def solutionColumn (A : Mat8x9) : Fin 9 → ℚ := fun i =>
  if h : (i : ℕ) < 8 then (gaussElim A).1 ⟨i, h⟩ (8 : Fin 9) else 0

/-- gaussSolveHomography: eliminate, read the last column, force the
ninth coefficient to 1 when it is near zero, normalise by it. -/
def gaussSolveHomography (A : Mat8x9) : Fin 9 → ℚ :=
  let hraw := solutionColumn A
  let h8 := if |hraw 8| < PIVOT_EPS then 1 else hraw 8
  fun i => (if (i : ℕ) = 8 then h8 else hraw i) / h8

/-- One of the two DLT rows pushed per correspondence in
computeHomography. -/
def dltRow (src dst : Fin 4 → ℚ × ℚ) (r : Fin 8) : List ℚ :=
  let p := src ⟨r.val / 2, by have := r.isLt; omega⟩
  let q := dst ⟨r.val / 2, by have := r.isLt; omega⟩
  if r.val % 2 = 0 then
    [p.1, p.2, 1, 0, 0, 0, -p.1 * q.1, -p.2 * q.1, q.1]
  else
    [0, 0, 0, p.1, p.2, 1, -p.1 * q.2, -p.2 * q.2, q.2]

/-- The assembled DLT system of computeHomography. -/
def dltMatrix (src dst : Fin 4 → ℚ × ℚ) : Mat8x9 := fun r j =>
  (dltRow src dst r).getD j.val 0

/-- computeHomography: solve for h0..h7 with h8 = 1 by Gaussian
elimination of the 8 by 9 DLT system. -/
def computeHomography (src dst : Fin 4 → ℚ × ℚ) : Fin 9 → ℚ :=
  gaussSolveHomography (dltMatrix src dst)

theorem swapRows_fst (A : Mat8x9) (r s : Fin 8) (j : Fin 9) :
    swapRows A r s r j = A s j := by
  unfold swapRows
  rw [if_pos rfl]

/-- Every pivot divided by during the elimination has absolute value at
least PIVOT_EPS, for any input matrix and any starting state whose
already-recorded divisors satisfy the bound. -/
theorem gaussLoopFuel_divs_bounded (fuel : ℕ) :
    ∀ (A : Mat8x9) (col row : ℕ) (divs : List ℚ),
      (∀ d ∈ divs, PIVOT_EPS ≤ |d|) →
      ∀ d ∈ (gaussLoopFuel fuel A col row divs).2, PIVOT_EPS ≤ |d| := by
  induction fuel with
  | zero => intro A col row divs h d hd; exact h d hd
  | succ n ih =>
    intro A col row divs h d hd
    rw [gaussLoopFuel] at hd
    by_cases hcr : col < 8 ∧ row < 8
    · rw [dif_pos hcr] at hd
      by_cases hpiv : |A (selectPivot A ⟨col, by omega⟩ ⟨row, hcr.2⟩) ⟨col, by omega⟩| < PIVOT_EPS
      · rw [if_pos hpiv] at hd
        exact ih A (col + 1) row divs h d hd
      · rw [if_neg hpiv] at hd
        refine ih _ (col + 1) (row + 1) _ ?_ d hd
        intro e he
        rcases List.mem_append.mp he with he | he
        · exact h e he
        · rcases List.mem_singleton.mp he with rfl
          rw [swapRows_fst]
          exact le_of_not_lt hpiv
    · rw [dif_neg hcr] at hd
      exact h d hd

/-- C7: whenever the selected pivot of the current column has absolute
value below 1e-9 the elimination skips the column, leaving the matrix,
the row counter and the recorded divisors unchanged, and consequently
every divisor used by a full elimination run has absolute value at least
1e-9, for every input matrix. -/
theorem gauss_pivot_guard :
    (∀ (fuel : ℕ) (A : Mat8x9) (col row : ℕ) (divs : List ℚ)
        (hcr : col < 8 ∧ row < 8),
      |A (selectPivot A ⟨col, by omega⟩ ⟨row, hcr.2⟩) ⟨col, by omega⟩| < PIVOT_EPS →
      gaussLoopFuel (fuel + 1) A col row divs = gaussLoopFuel fuel A (col + 1) row divs) ∧
    ∀ (A : Mat8x9), ∀ d ∈ (gaussElim A).2, PIVOT_EPS ≤ |d| := by
  constructor
  · intro fuel A col row divs hcr hpiv
    rw [gaussLoopFuel, dif_pos hcr, if_pos hpiv]
  · intro A
    exact gaussLoopFuel_divs_bounded 8 A 0 0 [] (by intro d hd; cases hd)

/-- The all-zero system, a degenerate input on which every column is
skipped. -/
def zeroMat : Mat8x9 := fun _ _ => 0

/-- The identity system, on which every pivot is 1. -/
def idMat : Mat8x9 := fun i j => if (i : ℕ) = (j : ℕ) then 1 else 0

set_option maxRecDepth 4000 in
/-- Witness for C7: on the all-zero system the first column is skipped
without a division, and the pivot 1 recorded by the elimination of the
identity system satisfies the bound. -/
theorem gauss_pivot_guard_witness :
    gaussLoopFuel 1 zeroMat 0 0 [] = gaussLoopFuel 0 zeroMat 1 0 [] ∧
    PIVOT_EPS ≤ |(1 : ℚ)| :=
  ⟨gauss_pivot_guard.1 0 zeroMat 0 0 [] ⟨by omega, by omega⟩
      (by with_unfolding_all decide),
    gauss_pivot_guard.2 idMat 1 (by with_unfolding_all decide)⟩

/-! ## Correctness of the elimination on runs without pivot skips -/

/-- The vector v solves every equation of the augmented system A: for each
row, the dot product of the first eight entries with v equals the ninth
entry. -/
def Sat (A : Mat8x9) (v : Fin 8 → ℚ) : Prop :=
  ∀ i : Fin 8, (∑ j : Fin 8, A i j.castSucc * v j) = A i (8 : Fin 9)

/-- The first k columns of A form the identity pattern. -/
def IdCols (A : Mat8x9) (k : ℕ) : Prop :=
  ∀ (i : Fin 8) (j : Fin 9), (j : ℕ) < k →
    A i j = if (i : ℕ) = (j : ℕ) then 1 else 0

theorem swapRows_eq_comp (A : Mat8x9) (r s : Fin 8) :
    swapRows A r s = fun i => A (Equiv.swap r s i) := by
  funext i j
  unfold swapRows
  by_cases h1 : i = r
  · subst h1
    rw [if_pos rfl, Equiv.swap_apply_left]
  · rw [if_neg h1]
    by_cases h2 : i = s
    · subst h2
      rw [if_pos rfl, Equiv.swap_apply_right]
    · rw [if_neg h2, Equiv.swap_apply_of_ne_of_ne h1 h2]

theorem sat_swapRows (A : Mat8x9) (r s : Fin 8) (v : Fin 8 → ℚ) :
    Sat (swapRows A r s) v ↔ Sat A v := by
  rw [swapRows_eq_comp]
  constructor
  · intro h i
    have := h (Equiv.swap r s i)
    simpa [Equiv.swap_apply_self] using this
  · intro h i
    exact h (Equiv.swap r s i)

theorem sat_scaleRowFrom (A : Mat8x9) (r : Fin 8) (c : Fin 9) (d : ℚ)
    (hd : d ≠ 0) (hz : ∀ j : Fin 9, (j : ℕ) < (c : ℕ) → A r j = 0)
    (v : Fin 8 → ℚ) :
    Sat (scaleRowFrom A r c d) v ↔ Sat A v := by
  have hother : ∀ (i : Fin 8), i ≠ r → ∀ j, scaleRowFrom A r c d i j = A i j := by
    intro i hi j
    unfold scaleRowFrom
    rw [if_neg (by tauto)]
  have hrow : ∀ j, scaleRowFrom A r c d r j = A r j / d := by
    intro j
    unfold scaleRowFrom
    by_cases hcj : c ≤ j
    · rw [if_pos ⟨rfl, hcj⟩]
    · rw [if_neg (by tauto), hz j (by exact_mod_cast not_le.mp hcj), zero_div]
  unfold Sat
  apply forall_congr'
  intro i
  by_cases hi : i = r
  · subst hi
    rw [Finset.sum_congr rfl (fun j _ => by rw [hrow j.castSucc]), hrow 8]
    rw [show (∑ j : Fin 8, A i j.castSucc / d * v j) =
        (∑ j : Fin 8, A i j.castSucc * v j) / d by
      rw [Finset.sum_div]
      exact Finset.sum_congr rfl fun j _ => by ring]
    exact div_left_inj' hd
  · rw [Finset.sum_congr rfl (fun j _ => by rw [hother i hi j.castSucc]), hother i hi 8]

theorem sat_elimOthers (A : Mat8x9) (r : Fin 8) (c : Fin 9)
    (hz : ∀ j : Fin 9, (j : ℕ) < (c : ℕ) → A r j = 0) (v : Fin 8 → ℚ) :
    Sat (elimOthers A r c) v ↔ Sat A v := by
  have hrow : ∀ j, elimOthers A r c r j = A r j := by
    intro j
    unfold elimOthers
    rw [if_neg (by tauto)]
  have hother : ∀ (i : Fin 8), i ≠ r → ∀ j,
      elimOthers A r c i j = A i j - A i c * A r j := by
    intro i hi j
    unfold elimOthers
    by_cases hcj : c ≤ j
    · rw [if_pos ⟨hi, hcj⟩]
    · rw [if_neg (by tauto), hz j (by exact_mod_cast not_le.mp hcj), mul_zero, sub_zero]
  have hsum : ∀ (i : Fin 8), i ≠ r →
      (∑ j : Fin 8, elimOthers A r c i j.castSucc * v j) =
        (∑ j : Fin 8, A i j.castSucc * v j) - A i c * ∑ j : Fin 8, A r j.castSucc * v j := by
    intro i hi
    rw [Finset.mul_sum, ← Finset.sum_sub_distrib]
    exact Finset.sum_congr rfl fun j _ => by rw [hother i hi j.castSucc]; ring
  constructor
  · intro h i
    by_cases hi : i = r
    · subst hi
      have := h i
      rwa [Finset.sum_congr rfl (fun j _ => by rw [hrow j.castSucc]), hrow 8] at this
    · have hr := h r
      rw [Finset.sum_congr rfl (fun j _ => by rw [hrow j.castSucc]), hrow 8] at hr
      have hi2 := h i
      rw [hsum i hi, hother i hi 8, hr] at hi2
      linarith
  · intro h i
    by_cases hi : i = r
    · subst hi
      rw [Finset.sum_congr rfl (fun j _ => by rw [hrow j.castSucc]), hrow 8]
      exact h i
    · rw [hsum i hi, hother i hi 8, h r, h i]

theorem selectPivot_ge (A : Mat8x9) (c : Fin 9) (r : Fin 8) :
    r ≤ selectPivot A c r := by
  unfold selectPivot
  have hgen : ∀ (l : List (Fin 8)) (acc : Fin 8), r ≤ acc → (∀ i ∈ l, r ≤ i) →
      r ≤ l.foldl (fun sel i => if |A sel c| < |A i c| then i else sel) acc := by
    intro l
    induction l with
    | nil => intro acc ha _; simpa using ha
    | cons a t ih =>
      intro acc ha hmem
      rw [List.foldl_cons]
      apply ih
      · by_cases hlt : |A acc c| < |A a c|
        · rw [if_pos hlt]; exact hmem a (List.mem_cons_self a t)
        · rw [if_neg hlt]; exact ha
      · intro i hi
        exact hmem i (List.mem_cons_of_mem a hi)
  apply hgen
  · exact le_refl r
  · intro i hi
    have := (List.mem_filter.mp hi).2
    exact le_of_lt (by simpa using this)

theorem IdCols_swapRows (A : Mat8x9) (k : ℕ) (hId : IdCols A k) (r s : Fin 8)
    (hrk : k ≤ (r : ℕ)) (hsk : k ≤ (s : ℕ)) : IdCols (swapRows A r s) k := by
  intro i j hj
  unfold swapRows
  by_cases h1 : i = r
  · subst h1
    rw [if_pos rfl, hId s j hj, if_neg (by omega), if_neg (by omega)]
  · rw [if_neg h1]
    by_cases h2 : i = s
    · subst h2
      rw [if_pos rfl, hId r j hj, if_neg (by omega), if_neg (by omega)]
    · rw [if_neg h2]
      exact hId i j hj

theorem IdCols_scaleRowFrom (A : Mat8x9) (k : ℕ) (hId : IdCols A k) (r : Fin 8)
    (c : Fin 9) (hkc : k ≤ (c : ℕ)) (d : ℚ) : IdCols (scaleRowFrom A r c d) k := by
  intro i j hj
  unfold scaleRowFrom
  rw [if_neg ?_]
  · exact hId i j hj
  · rintro ⟨-, hcj⟩
    have := Fin.le_def.mp hcj
    omega

theorem row_zero_of_IdCols (A : Mat8x9) (k : ℕ) (hId : IdCols A k) (r : Fin 8)
    (hrk : k ≤ (r : ℕ)) : ∀ j : Fin 9, (j : ℕ) < k → A r j = 0 := by
  intro j hj
  rw [hId r j hj, if_neg (by omega)]

/-- The body of a non-skipped column iteration: swap the pivot row up,
divide it by the pivot, eliminate the column from all other rows. -/
def gaussStep (A : Mat8x9) (c : Fin 9) (r : Fin 8) : Mat8x9 :=
  let sel := selectPivot A c r
  let A1 := swapRows A r sel
  let d := A1 r c
  let A2 := scaleRowFrom A1 r c d
  elimOthers A2 r c

theorem gaussLoopFuel_succ_noskip (fuel : ℕ) (A : Mat8x9) (col row : ℕ)
    (divs : List ℚ) (hc : col < 8) (hr : row < 8)
    (hpiv : ¬ |A (selectPivot A ⟨col, by omega⟩ ⟨row, hr⟩) ⟨col, by omega⟩| < PIVOT_EPS) :
    gaussLoopFuel (fuel + 1) A col row divs =
      gaussLoopFuel fuel (gaussStep A ⟨col, by omega⟩ ⟨row, hr⟩) (col + 1) (row + 1)
        (divs ++ [A (selectPivot A ⟨col, by omega⟩ ⟨row, hr⟩) ⟨col, by omega⟩]) := by
  rw [gaussLoopFuel, dif_pos ⟨hc, hr⟩, if_neg hpiv]
  dsimp only [gaussStep]
  rw [swapRows_fst]

theorem gaussLoopFuel_length_le (fuel : ℕ) :
    ∀ (A : Mat8x9) (col row : ℕ) (divs : List ℚ),
      (gaussLoopFuel fuel A col row divs).2.length ≤ divs.length + fuel := by
  induction fuel with
  | zero => intro A col row divs; simp [gaussLoopFuel]
  | succ n ih =>
    intro A col row divs
    rw [gaussLoopFuel]
    by_cases hcr : col < 8 ∧ row < 8
    · rw [dif_pos hcr]
      by_cases hpiv : |A (selectPivot A ⟨col, by omega⟩ ⟨row, hcr.2⟩) ⟨col, by omega⟩|
          < PIVOT_EPS
      · rw [if_pos hpiv]
        exact (ih A (col + 1) row divs).trans (by omega)
      · rw [if_neg hpiv]
        have := ih (elimOthers (scaleRowFrom (swapRows A ⟨row, hcr.2⟩
            (selectPivot A ⟨col, by omega⟩ ⟨row, hcr.2⟩)) ⟨row, hcr.2⟩ ⟨col, by omega⟩
            (swapRows A ⟨row, hcr.2⟩ (selectPivot A ⟨col, by omega⟩ ⟨row, hcr.2⟩)
              ⟨row, hcr.2⟩ ⟨col, by omega⟩)) ⟨row, hcr.2⟩ ⟨col, by omega⟩)
          (col + 1) (row + 1)
          (divs ++ [swapRows A ⟨row, hcr.2⟩ (selectPivot A ⟨col, by omega⟩ ⟨row, hcr.2⟩)
            ⟨row, hcr.2⟩ ⟨col, by omega⟩])
        rw [List.length_append] at this
        exact this.trans (by simp; omega)
    · rw [dif_neg hcr]
      simp

/-- A non-skipped column iteration at column and row index k extends the
identity pattern by one column and preserves the solution set. -/
theorem gaussStep_preserves (A : Mat8x9) (c : Fin 9) (r : Fin 8)
    (hcr : (c : ℕ) = (r : ℕ)) (hId : IdCols A (r : ℕ))
    (hd0 : A (selectPivot A c r) c ≠ 0) :
    IdCols (gaussStep A c r) ((r : ℕ) + 1) ∧
      ∀ v, (Sat (gaussStep A c r) v ↔ Sat A v) := by
  have hselge : (r : ℕ) ≤ ((selectPivot A c r : Fin 8) : ℕ) :=
    Fin.le_def.mp (selectPivot_ge A c r)
  have hA1Id : IdCols (swapRows A r (selectPivot A c r)) (r : ℕ) :=
    IdCols_swapRows A _ hId r _ le_rfl hselge
  have hz1 : ∀ j : Fin 9, (j : ℕ) < (c : ℕ) →
      swapRows A r (selectPivot A c r) r j = 0 := by
    rw [hcr]
    exact row_zero_of_IdCols _ _ hA1Id r le_rfl
  have hdval : swapRows A r (selectPivot A c r) r c = A (selectPivot A c r) c :=
    swapRows_fst A r (selectPivot A c r) c
  have hd0' : swapRows A r (selectPivot A c r) r c ≠ 0 := by
    rw [hdval]; exact hd0
  have hA2Id : IdCols (scaleRowFrom (swapRows A r (selectPivot A c r)) r c
      (swapRows A r (selectPivot A c r) r c)) (r : ℕ) :=
    IdCols_scaleRowFrom _ _ hA1Id r c (le_of_eq hcr.symm) _
  have hz2 : ∀ j : Fin 9, (j : ℕ) < (c : ℕ) →
      scaleRowFrom (swapRows A r (selectPivot A c r)) r c
        (swapRows A r (selectPivot A c r) r c) r j = 0 := by
    rw [hcr]
    exact row_zero_of_IdCols _ _ hA2Id r le_rfl
  have hA2rc : scaleRowFrom (swapRows A r (selectPivot A c r)) r c
      (swapRows A r (selectPivot A c r) r c) r c = 1 := by
    unfold scaleRowFrom
    rw [if_pos ⟨rfl, le_refl c⟩]
    exact div_self hd0'
  constructor
  · intro i j hj
    rw [gaussStep]
    by_cases hjk : (j : ℕ) < (r : ℕ)
    · have huntouched : elimOthers (scaleRowFrom (swapRows A r (selectPivot A c r)) r c
          (swapRows A r (selectPivot A c r) r c)) r c i j =
          scaleRowFrom (swapRows A r (selectPivot A c r)) r c
            (swapRows A r (selectPivot A c r) r c) i j := by
        unfold elimOthers
        rw [if_neg ?_]
        rintro ⟨-, hcj⟩
        have := Fin.le_def.mp hcj
        omega
      rw [huntouched]
      exact hA2Id i j hjk
    · have hjceq : j = c := Fin.ext (by omega)
      subst hjceq
      by_cases hir : i = r
      · subst hir
        have huntouched : elimOthers (scaleRowFrom (swapRows A i (selectPivot A j i)) i j
            (swapRows A i (selectPivot A j i) i j)) i j i j =
            scaleRowFrom (swapRows A i (selectPivot A j i)) i j
              (swapRows A i (selectPivot A j i) i j) i j := by
          unfold elimOthers
          rw [if_neg ?_]
          rintro ⟨hne, -⟩
          exact hne rfl
        rw [huntouched, hA2rc, if_pos (by omega)]
      · have helim : elimOthers (scaleRowFrom (swapRows A r (selectPivot A j r)) r j
            (swapRows A r (selectPivot A j r) r j)) r j i j =
            scaleRowFrom (swapRows A r (selectPivot A j r)) r j
              (swapRows A r (selectPivot A j r) r j) i j -
            scaleRowFrom (swapRows A r (selectPivot A j r)) r j
              (swapRows A r (selectPivot A j r) r j) i j *
            scaleRowFrom (swapRows A r (selectPivot A j r)) r j
              (swapRows A r (selectPivot A j r) r j) r j := by
          unfold elimOthers
          rw [if_pos ⟨hir, le_refl j⟩]
        rw [helim, hA2rc, mul_one, sub_self, if_neg ?_]
        intro hval
        exact hir (Fin.ext (by omega))
  · intro v
    rw [gaussStep]
    exact (sat_elimOthers _ r c hz2 v).trans
      ((sat_scaleRowFrom _ r c _ hd0' hz1 v).trans (sat_swapRows A r _ v))

/-- A run of the elimination whose divisor trace reaches the intended
length performed no pivot skip: it reduces the coefficient columns to the
identity pattern and preserves the solution set. -/
theorem gaussLoopFuel_correct (fuel : ℕ) :
    ∀ (k : ℕ) (A : Mat8x9) (divs : List ℚ), k + fuel = 8 → IdCols A k →
      (gaussLoopFuel fuel A k k divs).2.length = divs.length + fuel →
      IdCols (gaussLoopFuel fuel A k k divs).1 8 ∧
        ∀ v, (Sat (gaussLoopFuel fuel A k k divs).1 v ↔ Sat A v) := by
  induction fuel with
  | zero =>
    intro k A divs hk hId _
    have hk8 : k = 8 := by omega
    subst hk8
    exact ⟨hId, fun _ => Iff.rfl⟩
  | succ n ih =>
    intro k A divs hk hId hlen
    have hk8 : k < 8 := by omega
    by_cases hpiv : |A (selectPivot A ⟨k, by omega⟩ ⟨k, hk8⟩) ⟨k, by omega⟩| < PIVOT_EPS
    · exfalso
      have hskip : gaussLoopFuel (n + 1) A k k divs = gaussLoopFuel n A (k + 1) k divs := by
        rw [gaussLoopFuel, dif_pos ⟨(by omega : k < 8), hk8⟩, if_pos hpiv]
      rw [hskip] at hlen
      have hb := gaussLoopFuel_length_le n A (k + 1) k divs
      omega
    · rw [gaussLoopFuel_succ_noskip n A k k divs (by omega) hk8 hpiv] at hlen ⊢
      have hd0 : A (selectPivot A ⟨k, by omega⟩ ⟨k, hk8⟩) ⟨k, by omega⟩ ≠ 0 := by
        intro h0
        rw [h0, abs_zero] at hpiv
        exact hpiv (by norm_num [PIVOT_EPS])
      have hstep := gaussStep_preserves A ⟨k, by omega⟩ ⟨k, hk8⟩ rfl hId hd0
      have hres := ih (k + 1) (gaussStep A ⟨k, by omega⟩ ⟨k, hk8⟩)
        (divs ++ [A (selectPivot A ⟨k, by omega⟩ ⟨k, hk8⟩) ⟨k, by omega⟩])
        (by omega) hstep.1
        (by simp only [List.length_append, List.length_singleton]; omega)
      exact ⟨hres.1, fun v => (hres.2 v).trans (hstep.2 v)⟩

/-- The elimination run skipped no column: exactly eight pivot divisions
were recorded. Skips happen precisely on near-singular (degenerate)
systems, so this is the formal reading of a well-conditioned input. -/
def noSkip (A : Mat8x9) : Prop := (gaussElim A).2.length = 8

theorem gaussElim_correct (A : Mat8x9) (h : noSkip A) :
    IdCols (gaussElim A).1 8 ∧ ∀ v, (Sat (gaussElim A).1 v ↔ Sat A v) :=
  gaussLoopFuel_correct 8 0 A [] rfl (fun _ j hj => absurd hj (by omega))
    (by simp only [noSkip, gaussElim] at h; simpa using h)

theorem sat_solution_of_IdCols (M : Mat8x9) (hM : IdCols M 8) :
    Sat M (fun i => M i (8 : Fin 9)) := by
  intro i
  have hentry : ∀ j : Fin 8, M i j.castSucc = if (i : ℕ) = (j : ℕ) then 1 else 0 := by
    intro j
    have := hM i j.castSucc (by simpa using j.isLt)
    simpa using this
  rw [Finset.sum_congr rfl (fun j _ => by rw [hentry j])]
  have hterm : ∀ j : Fin 8, ((if (i : ℕ) = (j : ℕ) then (1 : ℚ) else 0) * M j (8 : Fin 9))
      = (if i = j then M j (8 : Fin 9) else 0) := by
    intro j
    by_cases hij : i = j
    · subst hij
      rw [if_pos rfl, if_pos rfl, one_mul]
    · rw [if_neg (fun hval => hij (Fin.ext hval)), if_neg hij, zero_mul]
  rw [Finset.sum_congr rfl (fun j _ => hterm j), Finset.sum_ite_eq]
  simp

theorem gaussSolveHomography_eq (A : Mat8x9) (i : Fin 9) :
    gaussSolveHomography A i =
      if h : (i : ℕ) < 8 then (gaussElim A).1 ⟨(i : ℕ), h⟩ (8 : Fin 9) else 1 := by
  have hsol8 : solutionColumn A (8 : Fin 9) = 0 := by
    unfold solutionColumn
    rw [dif_neg (by decide)]
  unfold gaussSolveHomography
  rw [hsol8, abs_zero, if_pos (show (0 : ℚ) < PIVOT_EPS by norm_num [PIVOT_EPS])]
  by_cases h8 : (i : ℕ) = 8
  · rw [if_pos h8, dif_neg (by omega), div_one]
  · have hlt : (i : ℕ) < 8 := by have := i.isLt; omega
    rw [if_neg h8, div_one, dif_pos hlt]
    unfold solutionColumn
    rw [dif_pos hlt]

theorem computeHomography_lt (src dst : Fin 4 → ℚ × ℚ) (n : ℕ)
    (hn9 : n < 9) (hn : n < 8) :
    computeHomography src dst ⟨n, hn9⟩ =
      (gaussElim (dltMatrix src dst)).1 ⟨n, hn⟩ (8 : Fin 9) := by
  unfold computeHomography
  rw [gaussSolveHomography_eq, dif_pos hn]

/-- The solved homography reproduces each DLT correspondence exactly, in
multiplied-out form, whenever the elimination skipped no pivot. -/
theorem dlt_equations (src dst : Fin 4 → ℚ × ℚ) (hns : noSkip (dltMatrix src dst)) :
    ∀ i : Fin 4,
      (computeHomography src dst 0 * (src i).1 + computeHomography src dst 1 * (src i).2 +
          computeHomography src dst 2 =
        (dst i).1 * (computeHomography src dst 6 * (src i).1 +
          computeHomography src dst 7 * (src i).2 + 1)) ∧
      (computeHomography src dst 3 * (src i).1 + computeHomography src dst 4 * (src i).2 +
          computeHomography src dst 5 =
        (dst i).2 * (computeHomography src dst 6 * (src i).1 +
          computeHomography src dst 7 * (src i).2 + 1)) := by
  have hcorr := gaussElim_correct (dltMatrix src dst) hns
  set M : Mat8x9 := (gaussElim (dltMatrix src dst)).1 with hMdef
  have hsat0 : Sat (dltMatrix src dst) (fun j => M j (8 : Fin 9)) :=
    (hcorr.2 _).mp (sat_solution_of_IdCols _ hcorr.1)
  have hH0 : computeHomography src dst 0 = M 0 (8 : Fin 9) :=
    computeHomography_lt src dst 0 (by omega) (by omega)
  have hH1 : computeHomography src dst 1 = M 1 (8 : Fin 9) :=
    computeHomography_lt src dst 1 (by omega) (by omega)
  have hH2 : computeHomography src dst 2 = M 2 (8 : Fin 9) :=
    computeHomography_lt src dst 2 (by omega) (by omega)
  have hH3 : computeHomography src dst 3 = M 3 (8 : Fin 9) :=
    computeHomography_lt src dst 3 (by omega) (by omega)
  have hH4 : computeHomography src dst 4 = M 4 (8 : Fin 9) :=
    computeHomography_lt src dst 4 (by omega) (by omega)
  have hH5 : computeHomography src dst 5 = M 5 (8 : Fin 9) :=
    computeHomography_lt src dst 5 (by omega) (by omega)
  have hH6 : computeHomography src dst 6 = M 6 (8 : Fin 9) :=
    computeHomography_lt src dst 6 (by omega) (by omega)
  have hH7 : computeHomography src dst 7 = M 7 (8 : Fin 9) :=
    computeHomography_lt src dst 7 (by omega) (by omega)
  rw [hH0, hH1, hH2, hH3, hH4, hH5, hH6, hH7]
  intro i
  fin_cases i
  · constructor
    · show M 0 8 * (src 0).1 + M 1 8 * (src 0).2 + M 2 8 =
        (dst 0).1 * (M 6 8 * (src 0).1 + M 7 8 * (src 0).2 + 1)
      have heq := hsat0 ⟨0, by omega⟩
      rw [Fin.sum_univ_eight] at heq
      have heq' : (src 0).1 * M 0 8 + (src 0).2 * M 1 8 + 1 * M 2 8 + 0 * M 3 8 +
          0 * M 4 8 + 0 * M 5 8 + -(src 0).1 * (dst 0).1 * M 6 8 +
          -(src 0).2 * (dst 0).1 * M 7 8 = (dst 0).1 := heq
      linear_combination heq'
    · show M 3 8 * (src 0).1 + M 4 8 * (src 0).2 + M 5 8 =
        (dst 0).2 * (M 6 8 * (src 0).1 + M 7 8 * (src 0).2 + 1)
      have heq := hsat0 ⟨1, by omega⟩
      rw [Fin.sum_univ_eight] at heq
      have heq' : 0 * M 0 8 + 0 * M 1 8 + 0 * M 2 8 + (src 0).1 * M 3 8 +
          (src 0).2 * M 4 8 + 1 * M 5 8 + -(src 0).1 * (dst 0).2 * M 6 8 +
          -(src 0).2 * (dst 0).2 * M 7 8 = (dst 0).2 := heq
      linear_combination heq'
  · constructor
    · show M 0 8 * (src 1).1 + M 1 8 * (src 1).2 + M 2 8 =
        (dst 1).1 * (M 6 8 * (src 1).1 + M 7 8 * (src 1).2 + 1)
      have heq := hsat0 ⟨2, by omega⟩
      rw [Fin.sum_univ_eight] at heq
      have heq' : (src 1).1 * M 0 8 + (src 1).2 * M 1 8 + 1 * M 2 8 + 0 * M 3 8 +
          0 * M 4 8 + 0 * M 5 8 + -(src 1).1 * (dst 1).1 * M 6 8 +
          -(src 1).2 * (dst 1).1 * M 7 8 = (dst 1).1 := heq
      linear_combination heq'
    · show M 3 8 * (src 1).1 + M 4 8 * (src 1).2 + M 5 8 =
        (dst 1).2 * (M 6 8 * (src 1).1 + M 7 8 * (src 1).2 + 1)
      have heq := hsat0 ⟨3, by omega⟩
      rw [Fin.sum_univ_eight] at heq
      have heq' : 0 * M 0 8 + 0 * M 1 8 + 0 * M 2 8 + (src 1).1 * M 3 8 +
          (src 1).2 * M 4 8 + 1 * M 5 8 + -(src 1).1 * (dst 1).2 * M 6 8 +
          -(src 1).2 * (dst 1).2 * M 7 8 = (dst 1).2 := heq
      linear_combination heq'
  · constructor
    · show M 0 8 * (src 2).1 + M 1 8 * (src 2).2 + M 2 8 =
        (dst 2).1 * (M 6 8 * (src 2).1 + M 7 8 * (src 2).2 + 1)
      have heq := hsat0 ⟨4, by omega⟩
      rw [Fin.sum_univ_eight] at heq
      have heq' : (src 2).1 * M 0 8 + (src 2).2 * M 1 8 + 1 * M 2 8 + 0 * M 3 8 +
          0 * M 4 8 + 0 * M 5 8 + -(src 2).1 * (dst 2).1 * M 6 8 +
          -(src 2).2 * (dst 2).1 * M 7 8 = (dst 2).1 := heq
      linear_combination heq'
    · show M 3 8 * (src 2).1 + M 4 8 * (src 2).2 + M 5 8 =
        (dst 2).2 * (M 6 8 * (src 2).1 + M 7 8 * (src 2).2 + 1)
      have heq := hsat0 ⟨5, by omega⟩
      rw [Fin.sum_univ_eight] at heq
      have heq' : 0 * M 0 8 + 0 * M 1 8 + 0 * M 2 8 + (src 2).1 * M 3 8 +
          (src 2).2 * M 4 8 + 1 * M 5 8 + -(src 2).1 * (dst 2).2 * M 6 8 +
          -(src 2).2 * (dst 2).2 * M 7 8 = (dst 2).2 := heq
      linear_combination heq'
  · constructor
    · show M 0 8 * (src 3).1 + M 1 8 * (src 3).2 + M 2 8 =
        (dst 3).1 * (M 6 8 * (src 3).1 + M 7 8 * (src 3).2 + 1)
      have heq := hsat0 ⟨6, by omega⟩
      rw [Fin.sum_univ_eight] at heq
      have heq' : (src 3).1 * M 0 8 + (src 3).2 * M 1 8 + 1 * M 2 8 + 0 * M 3 8 +
          0 * M 4 8 + 0 * M 5 8 + -(src 3).1 * (dst 3).1 * M 6 8 +
          -(src 3).2 * (dst 3).1 * M 7 8 = (dst 3).1 := heq
      linear_combination heq'
    · show M 3 8 * (src 3).1 + M 4 8 * (src 3).2 + M 5 8 =
        (dst 3).2 * (M 6 8 * (src 3).1 + M 7 8 * (src 3).2 + 1)
      have heq := hsat0 ⟨7, by omega⟩
      rw [Fin.sum_univ_eight] at heq
      have heq' : 0 * M 0 8 + 0 * M 1 8 + 0 * M 2 8 + (src 3).1 * M 3 8 +
          (src 3).2 * M 4 8 + 1 * M 5 8 + -(src 3).1 * (dst 3).2 * M 6 8 +
          -(src 3).2 * (dst 3).2 * M 7 8 = (dst 3).2 := heq
      linear_combination heq'

/-- The corners of the canonical square of warpToCanonical: (0, 0),
(size - 1, 0), (size - 1, size - 1), (0, size - 1). -/
def canonCorners (size : ℕ) : Fin 4 → ℚ × ℚ :=
  ![(0, 0), ((size : ℚ) - 1, 0), ((size : ℚ) - 1, (size : ℚ) - 1), (0, (size : ℚ) - 1)]

/-- Application of a solved homography to a point, with the mapping
formula of the warp loop: sx = (h0 x + h1 y + h2) / (h6 x + h7 y + 1),
sy = (h3 x + h4 y + h5) / (h6 x + h7 y + 1). -/
def applyHom (hcoef : Fin 9 → ℚ) (p : ℚ × ℚ) : ℚ × ℚ :=
  ((hcoef 0 * p.1 + hcoef 1 * p.2 + hcoef 2) / (hcoef 6 * p.1 + hcoef 7 * p.2 + 1),
   (hcoef 3 * p.1 + hcoef 4 * p.2 + hcoef 5) / (hcoef 6 * p.1 + hcoef 7 * p.2 + 1))

/-- C6: for a well-conditioned set of 4 target points (no pivot of the
DLT elimination is skipped and no target corner is mapped to infinity),
reapplying the solved homography to the corners of the canonical square
reproduces the target points within a relative error of 1e-3 (the
reproduction is in fact exact over the rationals). -/
theorem homography_roundtrip (size : ℕ) (dst : Fin 4 → ℚ × ℚ)
    (hns : noSkip (dltMatrix (canonCorners size) dst))
    (hden : ∀ i : Fin 4,
      computeHomography (canonCorners size) dst 6 * (canonCorners size i).1 +
        computeHomography (canonCorners size) dst 7 * (canonCorners size i).2 + 1 ≠ 0) :
    ∀ i : Fin 4,
      |(applyHom (computeHomography (canonCorners size) dst) (canonCorners size i)).1 -
          (dst i).1| ≤ 1/1000 * |(dst i).1| ∧
      |(applyHom (computeHomography (canonCorners size) dst) (canonCorners size i)).2 -
          (dst i).2| ≤ 1/1000 * |(dst i).2| := by
  intro i
  have heqs := dlt_equations (canonCorners size) dst hns i
  have hdeni := hden i
  have h1 : (applyHom (computeHomography (canonCorners size) dst) (canonCorners size i)).1 =
      (dst i).1 := by
    unfold applyHom
    dsimp only
    rw [div_eq_iff hdeni]
    exact heqs.1
  have h2 : (applyHom (computeHomography (canonCorners size) dst) (canonCorners size i)).2 =
      (dst i).2 := by
    unfold applyHom
    dsimp only
    rw [div_eq_iff hdeni]
    exact heqs.2
  rw [h1, h2, sub_self, sub_self, abs_zero]
  constructor <;> positivity

instance (A : Mat8x9) : Decidable (noSkip A) := by
  unfold noSkip
  infer_instance

/-- A concrete well-conditioned target: the unit canonical square scaled
by 2 and shifted by (1, 1). -/
def exDst : Fin 4 → ℚ × ℚ := ![(1, 1), (3, 1), (3, 3), (1, 3)]

set_option maxRecDepth 8000 in
/-- Witness for C6 at the canonical square of side 2 and the concrete
well-conditioned target exDst. -/
theorem homography_roundtrip_witness :
    |(applyHom (computeHomography (canonCorners 2) exDst) (canonCorners 2 0)).1 -
        (exDst 0).1| ≤ 1/1000 * |(exDst 0).1| ∧
    |(applyHom (computeHomography (canonCorners 2) exDst) (canonCorners 2 0)).2 -
        (exDst 0).2| ≤ 1/1000 * |(exDst 0).2| :=
  homography_roundtrip 2 exDst (by with_unfolding_all decide)
    (by with_unfolding_all decide) 0

/-! ## Projective normalization: warpToCanonical (App.jsx) -/

/-- The four RGBA bytes written for one destination pixel of the warp
loop: map (x, y) through the inverse homography formula, round to the
nearest source pixel, nearest-neighbour sample the frame with opaque
alpha, or write opaque white when the source coordinate leaves the
frame. -/
def warpPixel (sData : ℕ → ℕ) (sw sh : ℕ) (H : Fin 9 → ℚ) (x y : ℕ) : List ℕ :=
  let denom := H 6 * (x : ℚ) + H 7 * (y : ℚ) + 1
  let sx := (H 0 * (x : ℚ) + H 1 * (y : ℚ) + H 2) / denom
  let sy := (H 3 * (x : ℚ) + H 4 * (y : ℚ) + H 5) / denom
  let sx0 := round sx
  let sy0 := round sy
  if 0 ≤ sx0 ∧ 0 ≤ sy0 ∧ sx0 < (sw : ℤ) ∧ sy0 < (sh : ℤ) then
    [sData ((sy0.toNat * sw + sx0.toNat) * 4),
     sData ((sy0.toNat * sw + sx0.toNat) * 4 + 1),
     sData ((sy0.toNat * sw + sx0.toNat) * 4 + 2), 255]
  else [255, 255, 255, 255]

/-- The flat output buffer of the warp loop, produced row major: y outer,
x inner, four bytes per pixel. -/
def warpData (sData : ℕ → ℕ) (sw sh : ℕ) (H : Fin 9 → ℚ) (size : ℕ) : List ℕ :=
  (List.range size).flatMap fun y => (List.range size).flatMap fun x =>
    warpPixel sData sw sh H x y

/-- warpToCanonical: solve the homography mapping the canonical square to
the detected corners and resample the frame through it. -/
def warpToCanonical (frameData : ℕ → ℕ) (fw fh : ℕ) (corners : Fin 4 → ℚ × ℚ)
    (size : ℕ) : List ℕ :=
  warpData frameData fw fh (computeHomography (canonCorners size) corners) size

theorem warpPixel_length (sData : ℕ → ℕ) (sw sh : ℕ) (H : Fin 9 → ℚ) (x y : ℕ) :
    (warpPixel sData sw sh H x y).length = 4 := by
  unfold warpPixel
  dsimp only
  split <;> rfl

theorem length_flatMap_const {α : Type} (g : ℕ → List α) (k : ℕ)
    (hk : ∀ m, (g m).length = k) (n : ℕ) :
    ((List.range n).flatMap g).length = n * k := by
  induction n with
  | zero => simp
  | succ m ih =>
    rw [List.range_succ, List.flatMap_append, List.length_append, ih, Nat.succ_mul]
    simp [hk]

theorem flatMap_range_getD {α : Type} (d : α) (g : ℕ → List α) (k : ℕ)
    (hk : ∀ m, (g m).length = k) :
    ∀ (n i j : ℕ), i < n → j < k →
      ((List.range n).flatMap g).getD (i * k + j) d = (g i).getD j d := by
  intro n
  induction n with
  | zero => intro i j hi _; exact absurd hi (Nat.not_lt_zero i)
  | succ m ih =>
    intro i j hi hj
    rw [List.range_succ, List.flatMap_append]
    have hlen : ((List.range m).flatMap g).length = m * k :=
      length_flatMap_const g k hk m
    by_cases him : i < m
    · rw [List.getD_append _ _ _ _ (by
        rw [hlen]
        calc i * k + j < i * k + k := by omega
          _ = (i + 1) * k := (Nat.succ_mul i k).symm
          _ ≤ m * k := Nat.mul_le_mul_right k (by omega))]
      exact ih i j him hj
    · have hieq : i = m := by omega
      subst hieq
      rw [List.getD_append_right _ _ _ _ (by rw [hlen]; exact Nat.le_add_right _ _)]
      rw [hlen, show i * k + j - i * k = j by omega]
      simp

/-- C5: each destination pixel (x, y) of the size by size output of the
projective normalization receives, channel by channel, the
nearest-neighbour sample of the frame at the source coordinate given by
the inverse homography formula rounded to the nearest integer, with
opaque alpha, and opaque white (255, 255, 255, 255) when that coordinate
falls outside the frame. -/
theorem warpToCanonical_pixels (frameData : ℕ → ℕ) (fw fh : ℕ)
    (corners : Fin 4 → ℚ × ℚ) (size : ℕ) :
    ∀ x y c, x < size → y < size → c < 4 →
      (warpToCanonical frameData fw fh corners size).getD ((y * size + x) * 4 + c) 0 =
        (let H := computeHomography (canonCorners size) corners
        let denom := H 6 * (x : ℚ) + H 7 * (y : ℚ) + 1
        let sx0 := round ((H 0 * (x : ℚ) + H 1 * (y : ℚ) + H 2) / denom)
        let sy0 := round ((H 3 * (x : ℚ) + H 4 * (y : ℚ) + H 5) / denom)
        if 0 ≤ sx0 ∧ 0 ≤ sy0 ∧ sx0 < (fw : ℤ) ∧ sy0 < (fh : ℤ) then
          if c = 3 then 255
          else frameData ((sy0.toNat * fw + sx0.toNat) * 4 + c)
        else 255) := by
  intro x y c hx hy hc
  unfold warpToCanonical warpData
  rw [show (y * size + x) * 4 + c = y * (size * 4) + (x * 4 + c) by ring]
  rw [flatMap_range_getD 0 _ (size * 4)
    (fun m => length_flatMap_const _ 4 (fun xx => warpPixel_length frameData fw fh
      (computeHomography (canonCorners size) corners) xx m) size)
    size y (x * 4 + c) hy (by omega)]
  rw [flatMap_range_getD 0 _ 4
    (fun m => warpPixel_length frameData fw fh
      (computeHomography (canonCorners size) corners) m y)
    size x c hx hc]
  unfold warpPixel
  dsimp only
  split
  · interval_cases c <;> simp [List.getD]
  · interval_cases c <;> simp [List.getD]

/-- Witness for C5 at a concrete frame, corner set and output pixel. -/
theorem warpToCanonical_pixels_witness :
    (warpToCanonical (fun i => i % 9) 2 2 exDst 2).getD ((0 * 2 + 1) * 4 + 2) 0 =
      (let H := computeHomography (canonCorners 2) exDst
      let denom := H 6 * ((1 : ℕ) : ℚ) + H 7 * ((0 : ℕ) : ℚ) + 1
      let sx0 := round ((H 0 * ((1 : ℕ) : ℚ) + H 1 * ((0 : ℕ) : ℚ) + H 2) / denom)
      let sy0 := round ((H 3 * ((1 : ℕ) : ℚ) + H 4 * ((0 : ℕ) : ℚ) + H 5) / denom)
      if 0 ≤ sx0 ∧ 0 ≤ sy0 ∧ sx0 < ((2 : ℕ) : ℤ) ∧ sy0 < ((2 : ℕ) : ℤ) then
        if (2 : ℕ) = 3 then 255
        else (fun i => i % 9) ((sy0.toNat * 2 + sx0.toNat) * 4 + 2)
      else 255) :=
  warpToCanonical_pixels (fun i => i % 9) 2 2 exDst 2 1 0 2
    (by decide) (by decide) (by decide)

end QrPipeline
